import Mathlib

/-!
Verification development for the elix reactive-rendering core.

The development shallowly embeds, in Lean, the parts of the repository
that the specification's claims are about:

* JavaScript values and plain-object operations (`Object.assign`,
  property lookup), used throughout the sources;
* the update-descriptor engine (`merge` / `apply` of `updates.js`,
  modelled from the spec, since `updates.js` itself is not among the
  provided sources — only its callers are);
* the render scheduler of `ReactiveMixin.js` (likewise modelled from the
  spec, the mixin itself not being among the provided sources);
* `WrappedStandardElement.js`'s `shouldComponentUpdate`,
  `getInnerProperty` and `setInnerProperty`, embedded from the source;
* the `defaultState` / lifecycle-hook composition pattern used by
  `Toast`, `Drawer`, `ArrowDirectionMixin` and `SelectionInViewMixin`.
-/

namespace Elix

/-- A JavaScript value, as relevant to the embedded code.  Numbers are
modelled as integers; objects that appear only as opaque leaf values are
modelled by an identity (JavaScript compares objects with strict
equality by reference, so an identity is exactly what strict equality
observes). -/
inductive Value where
  | undefined : Value
  | null : Value
  | bool : Bool → Value
  | num : Int → Value
  | str : String → Value
  | obj : Nat → Value
deriving DecidableEq, Repr

/-- JavaScript truthiness: `undefined`, `null`, `false`, `0` and the
empty string are falsy; every other value (including every object) is
truthy. -/
def Value.truthy : Value → Bool
  | .undefined => false
  | .null => false
  | .bool b => b
  | .num n => n != 0
  | .str s => s != ""
  | .obj _ => true

/-- JavaScript `a || b`: returns `a` when `a` is truthy, else `b`. -/
def jsOr (a b : Value) : Value :=
  if a.truthy then a else b

/-- JavaScript `a && b`: returns `b` when `a` is truthy, else `a`. -/
def jsAnd (a b : Value) : Value :=
  if a.truthy then b else a

/-- A plain JavaScript object, modelled as an association list from
property names to values (entries in property-creation order, as JS
enumerates them). -/
abbrev Obj := List (String × Value)

/-- Property lookup: the value at the first entry for the key.  A plain
JS object holds at most one entry per key, for which this is exactly
property access. -/
def lookupVal : Obj → String → Option Value
  | [], _ => none
  | (k', v) :: rest, k => if k' = k then some v else lookupVal rest k

/-- JavaScript property read `o[k]`: `undefined` when the key is
absent. -/
def getProp (o : Obj) (k : String) : Value :=
  (lookupVal o k).getD .undefined

/-- The value at the last entry for a key.  On an object with unique
keys this agrees with `lookupVal`; it describes which entry survives a
left fold of single-property assignments. -/
def lookupLast : Obj → String → Option Value
  | [], _ => none
  | (k', v) :: rest, k =>
    match lookupLast rest k with
    | some w => some w
    | none => if k' = k then some v else none

/-- Assigning one property, as JS does: overwrite the existing entry in
place if the key is present, else append a new entry. -/
def assignOne : Obj → String → Value → Obj
  | [], k, v => [(k, v)]
  | (k', v') :: rest, k, v =>
    if k' = k then (k, v) :: rest else (k', v') :: assignOne rest k v

/-- `Object.assign(base, src)`: assign each entry of `src` onto `base`
in order. -/
def objectAssign (base src : Obj) : Obj :=
  src.foldl (fun acc p => assignOne acc p.1 p.2) base

/-- Deleting a property: drop every entry for the key. -/
def eraseKey : Obj → String → Obj
  | [], _ => []
  | (k', v') :: rest, k =>
    if k' = k then eraseKey rest k else (k', v') :: eraseKey rest k

theorem lookupVal_assignOne_self (o : Obj) (k : String) (v : Value) :
    lookupVal (assignOne o k v) k = some v := by
  induction o with
  | nil => simp [assignOne, lookupVal]
  | cons p rest ih =>
    obtain ⟨pk, pv⟩ := p
    by_cases h : pk = k
    · simp [assignOne, h, lookupVal]
    · simp [assignOne, h, lookupVal, ih]

theorem lookupVal_assignOne_other (o : Obj) (k k' : String) (v : Value)
    (h : k' ≠ k) : lookupVal (assignOne o k v) k' = lookupVal o k' := by
  induction o with
  | nil => simp [assignOne, lookupVal, Ne.symm h]
  | cons p rest ih =>
    obtain ⟨pk, pv⟩ := p
    by_cases hk : pk = k
    · subst hk
      simp [assignOne, lookupVal, Ne.symm h]
    · simp [assignOne, hk, lookupVal, ih]

theorem lookupVal_eraseKey_self (o : Obj) (k : String) :
    lookupVal (eraseKey o k) k = none := by
  induction o with
  | nil => simp [eraseKey, lookupVal]
  | cons p rest ih =>
    obtain ⟨pk, pv⟩ := p
    by_cases h : pk = k
    · simp [eraseKey, h, ih]
    · simp [eraseKey, h, lookupVal, ih]

theorem lookupVal_eraseKey_other (o : Obj) (k k' : String) (h : k' ≠ k) :
    lookupVal (eraseKey o k) k' = lookupVal o k' := by
  induction o with
  | nil => simp [eraseKey, lookupVal]
  | cons p rest ih =>
    obtain ⟨pk, pv⟩ := p
    by_cases hk : pk = k
    · subst hk
      simp [eraseKey, lookupVal, Ne.symm h, ih]
    · simp [eraseKey, hk, lookupVal, ih]

theorem lookupVal_objectAssign (base src : Obj) (k : String) :
    lookupVal (objectAssign base src) k =
      match lookupLast src k with
      | some v => some v
      | none => lookupVal base k := by
  induction src generalizing base with
  | nil => simp [objectAssign, lookupLast]
  | cons p rest ih =>
    have step : objectAssign base (p :: rest)
        = objectAssign (assignOne base p.1 p.2) rest := rfl
    rw [step, ih]
    rcases hrest : lookupLast rest k with _ | w
    · by_cases hk : p.1 = k
      · subst hk
        simp [lookupLast, hrest, lookupVal_assignOne_self]
      · simp [lookupLast, hrest, hk,
          lookupVal_assignOne_other base p.1 k p.2 (Ne.symm hk)]
    · simp [lookupLast, hrest]

theorem lookupLast_of_notMem (o : Obj) (k : String)
    (h : k ∉ o.map Prod.fst) : lookupLast o k = none := by
  induction o with
  | nil => rfl
  | cons p rest ih =>
    simp only [List.map_cons, List.mem_cons] at h
    push_neg at h
    have hk : p.1 ≠ k := fun hh => h.1 hh.symm
    simp [lookupLast, ih h.2, hk]

theorem lookupLast_eq_lookupVal (o : Obj) (k : String)
    (h : (o.map Prod.fst).Nodup) : lookupLast o k = lookupVal o k := by
  induction o with
  | nil => rfl
  | cons p rest ih =>
    obtain ⟨pk, pv⟩ := p
    simp only [List.map_cons, List.nodup_cons] at h
    by_cases hk : pk = k
    · subst hk
      simp [lookupLast, lookupVal, lookupLast_of_notMem rest pk h.1]
    · have hr := ih h.2
      cases hrv : lookupVal rest k <;>
        simp [lookupLast, lookupVal, hk, hr, hrv]

/-- A `null` or `undefined` leaf value, which the spec gives "remove /
unset" meaning in an update descriptor. -/
def Value.isUnset : Value → Bool
  | .null => true
  | .undefined => true
  | _ => false

/-- Modelled from the spec: the update-descriptor tree of `updates.js`
(the file `updates.js` is not among the provided sources; only its
callers are).  Per spec section 3 a descriptor node carries (1) direct
property/attribute assignment leaves, (2) the reserved style map of leaf
assignments, and (3) the reserved sub-targets map from symbolic target
name to a nested descriptor. -/
inductive UD where
  | node (props : Obj) (style : Obj) (subs : List (String × UD))

/-- Direct assignment leaves of a descriptor. -/
def UD.props : UD → Obj
  | .node p _ _ => p

/-- Style leaves of a descriptor. -/
def UD.style : UD → Obj
  | .node _ s _ => s

/-- Sub-target entries of a descriptor. -/
def UD.subs : UD → List (String × UD)
  | .node _ _ s => s

/-- First entry for a symbolic name in a sub-target map. -/
def lookupSub : List (String × UD) → String → Option UD
  | [], _ => none
  | (k', d) :: rest, k => if k' = k then some d else lookupSub rest k

/-- Modelled from the spec: merge of one leaf-assignment map of
`updates.js` (file not among the provided sources).  The merge is
right-biased per key, and a `null`/`undefined` value in the override
deletes the corresponding assignment from the result rather than
falling back to the base's value. -/
def mergeLeaf (base ov : Obj) : Obj :=
  ov.foldl
    (fun acc p => if p.2.isUnset then eraseKey acc p.1 else assignOne acc p.1 p.2)
    base

mutual

/-- Modelled from the spec: `merge(base, override)` of `updates.js`
(file not among the provided sources).  Leaf maps (direct assignments
and the reserved style map) merge right-biased per key; the reserved
sub-target map merges key-wise recursively; an override leaf whose
value is an object replaces the base leaf wholesale. -/
def UD.merge : UD → UD → UD
  | .node ap ast asub, .node bp bst bsub =>
    .node (mergeLeaf ap bp) (mergeLeaf ast bst)
      (UD.mergeSubs asub bsub ++
        bsub.filter (fun q => (lookupSub asub q.1).isNone))

/-- Modelled from the spec: key-wise recursive merge of the reserved
sub-target maps; a name present in both maps merges the two nested
descriptors recursively. -/
def UD.mergeSubs : List (String × UD) → List (String × UD) → List (String × UD)
  | [], _ => []
  | (k, d) :: rest, bsub =>
    (k, match lookupSub bsub k with
        | some d2 => UD.merge d d2
        | none => d) :: UD.mergeSubs rest bsub

end

theorem lookupVal_mergeLeaf (base ov : Obj) (k : String) :
    lookupVal (mergeLeaf base ov) k =
      match lookupLast ov k with
      | some v => if v.isUnset then none else some v
      | none => lookupVal base k := by
  induction ov generalizing base with
  | nil => simp [mergeLeaf, lookupLast]
  | cons p rest ih =>
    obtain ⟨pk, pv⟩ := p
    have step : mergeLeaf base ((pk, pv) :: rest)
        = mergeLeaf (if pv.isUnset then eraseKey base pk else assignOne base pk pv) rest := rfl
    rw [step, ih]
    rcases hrest : lookupLast rest k with _ | w
    · by_cases hk : pk = k
      · subst hk
        cases hu : pv.isUnset <;>
          simp [lookupLast, hrest, hu, lookupVal_eraseKey_self,
            lookupVal_assignOne_self]
      · cases hu : pv.isUnset <;>
          simp [lookupLast, hrest, hk, hu,
            lookupVal_eraseKey_other base pk k (Ne.symm hk),
            lookupVal_assignOne_other base pk k pv (Ne.symm hk)]
    · simp [lookupLast, hrest]

theorem lookupSub_mergeSubs_found (asub : List (String × UD)) (bsub : List (String × UD))
    (k : String) (d : UD) (hd : lookupSub asub k = some d) :
    lookupSub (UD.mergeSubs asub bsub) k =
      some (match lookupSub bsub k with
            | some d2 => UD.merge d d2
            | none => d) := by
  induction asub with
  | nil => simp [lookupSub] at hd
  | cons p rest ih =>
    obtain ⟨pk, pd⟩ := p
    by_cases hk : pk = k
    · subst hk
      simp only [lookupSub, if_pos rfl] at hd
      cases hd
      simp [UD.mergeSubs, lookupSub]
    · simp only [lookupSub, if_neg hk] at hd
      simp [UD.mergeSubs, lookupSub, hk, ih hd]

theorem lookupSub_merge_subs (a b : UD) (k : String) (d : UD)
    (hd : lookupSub a.subs k = some d) :
    lookupSub (a.merge b).subs k =
      some (match lookupSub b.subs k with
            | some d2 => UD.merge d d2
            | none => d) := by
  obtain ⟨ap, ast, asub⟩ := a
  obtain ⟨bp, bst, bsub⟩ := b
  simp only [UD.subs] at hd
  have h1 := lookupSub_mergeSubs_found asub bsub k d hd
  -- lookup in the appended list hits the mergeSubs part first
  have happ : ∀ (l1 l2 : List (String × UD)) (x : UD),
      lookupSub l1 k = some x → lookupSub (l1 ++ l2) k = some x := by
    intro l1 l2 x hx
    induction l1 with
    | nil => simp [lookupSub] at hx
    | cons q qs ihq =>
      obtain ⟨qk, qd⟩ := q
      by_cases hqk : qk = k
      · subst hqk
        rw [lookupSub, if_pos rfl] at hx
        rw [List.cons_append, lookupSub, if_pos rfl]
        exact hx
      · simp only [lookupSub, if_neg hqk] at hx
        simp [lookupSub, hqk, ihq hx]
  simp only [UD.merge, UD.subs]
  exact happ _ _ _ h1

theorem props_merge (a b : UD) :
    (a.merge b).props = mergeLeaf a.props b.props := by
  obtain ⟨ap, ast, asub⟩ := a
  obtain ⟨bp, bst, bsub⟩ := b
  simp [UD.merge, UD.props]

theorem style_merge (a b : UD) :
    (a.merge b).style = mergeLeaf a.style b.style := by
  obtain ⟨ap, ast, asub⟩ := a
  obtain ⟨bp, bst, bsub⟩ := b
  simp [UD.merge, UD.style]

theorem lookupVal_merge_props_right (a b : UD) (k : String) (vb : Value)
    (hb : lookupVal b.props k = some vb)
    (hnb : (b.props.map Prod.fst).Nodup)
    (hu : vb.isUnset = false) :
    lookupVal (a.merge b).props k = some vb := by
  rw [props_merge, lookupVal_mergeLeaf, lookupLast_eq_lookupVal _ _ hnb, hb]
  simp [hu]

/-- C1: merging two update descriptors is right-biased per leaf key
(when both set the same property leaf, the override's value is the
result's value, and `merge(merge(a,b),c)` yields c's value for a leaf
key set by all three); the reserved sub-targets map and the reserved
style map are merged key-wise recursively rather than replaced
wholesale (in particular
`merge({sub:{x:{a:1}}}, {sub:{x:{b:2}}}) = {sub:{x:{a:1,b:2}}}`),
while an override leaf holding any other nested map (an object value)
replaces the base leaf, not merges with it. -/
theorem merge_right_biased_recursive_on_reserved :
    (∀ (a b : UD) (k : String) (va vb : Value),
        lookupVal a.props k = some va →
        lookupVal b.props k = some vb →
        (b.props.map Prod.fst).Nodup → vb.isUnset = false →
        lookupVal (a.merge b).props k = some vb)
    ∧ (∀ (a b c : UD) (k : String) (va vb vc : Value),
        lookupVal a.props k = some va →
        lookupVal b.props k = some vb →
        lookupVal c.props k = some vc →
        (c.props.map Prod.fst).Nodup → vc.isUnset = false →
        lookupVal ((a.merge b).merge c).props k = some vc)
    ∧ (UD.merge (.node [] [] [("x", .node [("a", .num 1)] [] [])])
                (.node [] [] [("x", .node [("b", .num 2)] [] [])])
        = .node [] [] [("x", .node [("a", .num 1), ("b", .num 2)] [] [])])
    ∧ (∀ (a b : UD) (k : String) (d d2 : UD),
        lookupSub a.subs k = some d → lookupSub b.subs k = some d2 →
        lookupSub (a.merge b).subs k = some (d.merge d2))
    ∧ (∀ (a b : UD) (k : String) (v : Value),
        lookupVal a.style k = some v → lookupLast b.style k = none →
        lookupVal (a.merge b).style k = some v)
    ∧ (∀ (a b : UD) (k : String) (i j : Nat),
        lookupVal a.props k = some (.obj i) →
        lookupVal b.props k = some (.obj j) →
        (b.props.map Prod.fst).Nodup →
        lookupVal (a.merge b).props k = some (.obj j)) := by
  refine ⟨?_, ?_, ?_, ?_, ?_, ?_⟩
  · intro a b k _ vb _ hb hnb hu
    exact lookupVal_merge_props_right a b k vb hb hnb hu
  · intro a b c k _ _ vc _ _ hc hnc hu
    exact lookupVal_merge_props_right (a.merge b) c k vc hc hnc hu
  · simp [UD.merge, UD.mergeSubs, mergeLeaf, eraseKey, assignOne, lookupSub,
      Value.isUnset]
  · intro a b k d d2 hd hd2
    rw [lookupSub_merge_subs a b k d hd, hd2]
  · intro a b k v hv hb
    rw [style_merge, lookupVal_mergeLeaf, hb, hv]
  · intro a b k i j _ hb hnb
    exact lookupVal_merge_props_right a b k (.obj j) hb hnb rfl

/-- Witness for C1: the right-bias, triple-merge, sub-target and style
conjuncts applied at concrete descriptors. -/
theorem merge_right_biased_recursive_on_reserved_witness :
    lookupVal ((UD.node [("k", .num 1)] [("s", .str "old")] []).merge
        (.node [("k", .num 2)] [] [])).props "k" = some (.num 2)
    ∧ lookupVal (((UD.node [("k", .num 1)] [] []).merge
          (.node [("k", .num 2)] [] [])).merge
        (.node [("k", .num 3)] [] [])).props "k" = some (.num 3)
    ∧ lookupSub ((UD.node [] [] [("x", .node [("a", .num 1)] [] [])]).merge
        (.node [] [] [("x", .node [("b", .num 2)] [] [])])).subs "x"
        = some ((UD.node [("a", .num 1)] [] []).merge (.node [("b", .num 2)] [] []))
    ∧ lookupVal ((UD.node [] [("s", .str "old")] []).merge
        (.node [] [("t", .str "new")] [])).style "s" = some (.str "old")
    ∧ lookupVal ((UD.node [("k", .obj 7)] [] []).merge
        (.node [("k", .obj 9)] [] [])).props "k" = some (.obj 9) := by
  refine ⟨?_, ?_, ?_, ?_, ?_⟩
  · exact merge_right_biased_recursive_on_reserved.1 _ _ "k" (.num 1) (.num 2)
      rfl rfl (by decide) rfl
  · exact merge_right_biased_recursive_on_reserved.2.1 _ _ _ "k"
      (.num 1) (.num 2) (.num 3) rfl rfl rfl (by decide) rfl
  · exact merge_right_biased_recursive_on_reserved.2.2.2.1 _ _ "x" _ _ rfl rfl
  · exact merge_right_biased_recursive_on_reserved.2.2.2.2.1 _ _ "s"
      (.str "old") rfl rfl
  · exact merge_right_biased_recursive_on_reserved.2.2.2.2.2 _ _ "k" 7 9
      rfl rfl (by decide)

/-- Boolean test that a key list has no duplicates. -/
def keyNodup : List String → Bool
  | [] => true
  | k :: rest => !(rest.contains k) && keyNodup rest

theorem keyNodup_iff (l : List String) : keyNodup l = true ↔ l.Nodup := by
  induction l with
  | nil => simp [keyNodup]
  | cons k rest ih =>
    simp [keyNodup, ih, List.nodup_cons]

mutual

/-- Well-formedness of a descriptor as produced by JavaScript object
literals: each of the three maps has no duplicate keys, recursively. -/
def UD.wfb : UD → Bool
  | .node p s subs =>
    keyNodup (p.map Prod.fst) && keyNodup (s.map Prod.fst)
      && keyNodup (subs.map Prod.fst) && UD.wfbSubs subs

/-- Well-formedness of every descriptor in a sub-target map. -/
def UD.wfbSubs : List (String × UD) → Bool
  | [] => true
  | (_, d) :: rest => UD.wfb d && UD.wfbSubs rest

end

/-- Modelled from the spec: a render target tree, the shape behind the
opaque target registry that `apply` of `updates.js` (file not among the
provided sources) writes to.  A target holds its observable property
and style assignments, and its registry of named sub-targets. -/
inductive Target where
  | node (props : Obj) (style : Obj) (subs : List (String × Target))

/-- Observable property assignments of a target. -/
def Target.props : Target → Obj
  | .node p _ _ => p

/-- Observable style assignments of a target. -/
def Target.style : Target → Obj
  | .node _ s _ => s

/-- Named sub-targets of a target. -/
def Target.subs : Target → List (String × Target)
  | .node _ _ s => s

/-- First entry for a symbolic name in a target registry. -/
def lookupTgt : List (String × Target) → String → Option Target
  | [], _ => none
  | (k', t) :: rest, k => if k' = k then some t else lookupTgt rest k

/-- Replace every entry for a name in a target registry by a new
target. -/
def replaceTgt : List (String × Target) → String → Target → List (String × Target)
  | [], _, _ => []
  | (k', t') :: rest, k, t =>
    if k' = k then (k, t) :: replaceTgt rest k t
    else (k', t') :: replaceTgt rest k t

/-- Modelled from the spec: applying one leaf assignment with the
compare-before-write discipline of `apply` in `updates.js` (file not
among the provided sources).  A `null`/`undefined` value unsets the
assignment; any other value is written only when it differs from the
current one.  The second component counts the writes performed. -/
def stepAssign (cur : Obj) (k : String) (v : Value) : Obj × Nat :=
  if v.isUnset then
    match lookupVal cur k with
    | some _ => (eraseKey cur k, 1)
    | none => (cur, 0)
  else if lookupVal cur k = some v then (cur, 0)
  else (assignOne cur k v, 1)

/-- Modelled from the spec: applying a leaf-assignment map in order,
counting writes. -/
def applyLeaf (cur : Obj) : Obj → Obj × Nat
  | [] => (cur, 0)
  | (k, v) :: rest =>
    let s := stepAssign cur k v
    let r := applyLeaf s.1 rest
    (r.1, s.2 + r.2)

mutual

/-- Modelled from the spec: `apply(target, descriptor)` of `updates.js`
(file not among the provided sources).  Direct and style leaves are
applied to the target compare-before-write; each sub-target entry
resolves its name in the target's registry and recursively applies the
nested descriptor, and an unresolvable name is a no-op for that branch.
The second component counts the writes performed. -/
def applyUD : Target → UD → Target × Nat
  | .node tp ts tsubs, .node p s subs =>
    let rp := applyLeaf tp p
    let rs := applyLeaf ts s
    let rsub := applySubs tsubs subs
    (.node rp.1 rs.1 rsub.1, rp.2 + rs.2 + rsub.2)

/-- Modelled from the spec: applying the sub-target entries of a
descriptor to a target registry in order. -/
def applySubs : List (String × Target) → List (String × UD) → List (String × Target) × Nat
  | tsubs, [] => (tsubs, 0)
  | tsubs, (k, d) :: rest =>
    let s : List (String × Target) × Nat :=
      match lookupTgt tsubs k with
      | some t =>
        let r := applyUD t d
        (replaceTgt tsubs k r.1, r.2)
      | none => (tsubs, 0)
    let r2 := applySubs s.1 rest
    (r2.1, s.2 + r2.2)

end

theorem lookupVal_stepAssign_other (cur : Obj) (k k' : String) (v : Value)
    (h : k' ≠ k) : lookupVal (stepAssign cur k v).1 k' = lookupVal cur k' := by
  rw [stepAssign]
  by_cases hu : v.isUnset
  · rw [if_pos hu]
    cases hc : lookupVal cur k
    · simp
    · simp [lookupVal_eraseKey_other cur k k' h]
  · rw [if_neg hu]
    by_cases he : lookupVal cur k = some v
    · simp [he]
    · simp [he, lookupVal_assignOne_other cur k k' v h]

theorem lookupVal_stepAssign_self (cur : Obj) (k : String) (v : Value) :
    lookupVal (stepAssign cur k v).1 k =
      if v.isUnset then none else some v := by
  rw [stepAssign]
  by_cases hu : v.isUnset
  · rw [if_pos hu]
    cases hc : lookupVal cur k
    · simp [hu, hc]
    · simp [hu, lookupVal_eraseKey_self]
  · rw [if_neg hu]
    by_cases he : lookupVal cur k = some v
    · simp [hu, he]
    · simp [hu, he, lookupVal_assignOne_self]

theorem stepAssign_stable (cur : Obj) (k : String) (v : Value)
    (h : lookupVal cur k = if v.isUnset then none else some v) :
    stepAssign cur k v = (cur, 0) := by
  rw [stepAssign]
  by_cases hu : v.isUnset
  · rw [if_pos hu] at h
    simp [hu, h]
  · rw [if_neg hu] at h
    simp [hu, h]

theorem lookupVal_applyLeaf_notMem (asgs : Obj) (k : String)
    (h : k ∉ asgs.map Prod.fst) :
    ∀ cur, lookupVal (applyLeaf cur asgs).1 k = lookupVal cur k := by
  induction asgs with
  | nil => intro cur; rfl
  | cons p rest ih =>
    intro cur
    obtain ⟨pk, pv⟩ := p
    simp only [List.map_cons, List.mem_cons] at h
    push_neg at h
    have hkk : k ≠ pk := h.1
    simp only [applyLeaf]
    rw [ih h.2, lookupVal_stepAssign_other cur pk k pv hkk]

theorem applyLeaf_idem (asgs : Obj) (hnd : (asgs.map Prod.fst).Nodup) :
    ∀ cur, applyLeaf (applyLeaf cur asgs).1 asgs = ((applyLeaf cur asgs).1, 0) := by
  induction asgs with
  | nil => intro cur; rfl
  | cons p rest ih =>
    intro cur
    obtain ⟨pk, pv⟩ := p
    simp only [List.map_cons, List.nodup_cons] at hnd
    have hstep2 : stepAssign (applyLeaf (stepAssign cur pk pv).1 rest).1 pk pv
        = ((applyLeaf (stepAssign cur pk pv).1 rest).1, 0) := by
      apply stepAssign_stable
      rw [lookupVal_applyLeaf_notMem rest pk hnd.1,
        lookupVal_stepAssign_self]
    have hrest := ih hnd.2 (stepAssign cur pk pv).1
    simp [applyLeaf, hstep2, hrest]

theorem map_fst_replaceTgt (l : List (String × Target)) (k : String) (t : Target) :
    (replaceTgt l k t).map Prod.fst = l.map Prod.fst := by
  induction l with
  | nil => rfl
  | cons p rest ih =>
    obtain ⟨pk, pt⟩ := p
    by_cases h : pk = k
    · subst h
      simp [replaceTgt, ih]
    · simp [replaceTgt, h, ih]

theorem lookupTgt_replaceTgt_other (l : List (String × Target)) (k k' : String)
    (t : Target) (h : k' ≠ k) :
    lookupTgt (replaceTgt l k t) k' = lookupTgt l k' := by
  induction l with
  | nil => rfl
  | cons p rest ih =>
    obtain ⟨pk, pt⟩ := p
    by_cases hk : pk = k
    · subst hk
      simp [replaceTgt, lookupTgt, Ne.symm h, ih]
    · simp only [replaceTgt, if_neg hk]
      by_cases hk' : pk = k'
      · simp [lookupTgt, hk']
      · simp [lookupTgt, hk', ih]

theorem replaceTgt_invariant (l : List (String × Target)) (k : String) (t : Target) :
    ∀ p ∈ replaceTgt l k t, p.1 = k → p.2 = t := by
  induction l with
  | nil => intro p hp; simp [replaceTgt] at hp
  | cons q rest ih =>
    obtain ⟨qk, qt⟩ := q
    intro p hp hpk
    by_cases hk : qk = k
    · rw [replaceTgt, if_pos hk] at hp
      rcases List.mem_cons.mp hp with h1 | h1
      · rw [h1]
      · exact ih p h1 hpk
    · rw [replaceTgt, if_neg hk] at hp
      rcases List.mem_cons.mp hp with h1 | h1
      · rw [h1] at hpk
        exact absurd hpk hk
      · exact ih p h1 hpk

theorem replaceTgt_eq_self (l : List (String × Target)) (k : String) (t : Target)
    (hinv : ∀ p ∈ l, p.1 = k → p.2 = t) : replaceTgt l k t = l := by
  induction l with
  | nil => rfl
  | cons q rest ih =>
    obtain ⟨qk, qt⟩ := q
    have htail : ∀ p ∈ rest, p.1 = k → p.2 = t :=
      fun p hp => hinv p (List.mem_cons_of_mem _ hp)
    by_cases hk : qk = k
    · have hqt : qt = t := hinv (qk, qt) (List.mem_cons_self _ _) hk
      rw [replaceTgt, if_pos hk, ih htail, hk, hqt]
    · rw [replaceTgt, if_neg hk, ih htail]

theorem replaceTgt_preserves_invariant (l : List (String × Target))
    (k k' : String) (t t' : Target) (hkk : k ≠ k')
    (hinv : ∀ p ∈ l, p.1 = k → p.2 = t) :
    ∀ p ∈ replaceTgt l k' t', p.1 = k → p.2 = t := by
  induction l with
  | nil => intro p hp; simp [replaceTgt] at hp
  | cons q rest ih =>
    obtain ⟨qk, qt⟩ := q
    have htail : ∀ p ∈ rest, p.1 = k → p.2 = t :=
      fun p hp => hinv p (List.mem_cons_of_mem _ hp)
    intro p hp hpk
    by_cases hk : qk = k'
    · rw [replaceTgt, if_pos hk] at hp
      rcases List.mem_cons.mp hp with h1 | h1
      · rw [h1] at hpk
        exact absurd hpk.symm hkk
      · exact ih htail p h1 hpk
    · rw [replaceTgt, if_neg hk] at hp
      rcases List.mem_cons.mp hp with h1 | h1
      · rw [h1] at hpk ⊢
        exact hinv (qk, qt) (List.mem_cons_self _ _) hpk
      · exact ih htail p h1 hpk

theorem lookupTgt_of_invariant (l : List (String × Target)) (k : String) (t : Target)
    (hmem : k ∈ l.map Prod.fst) (hinv : ∀ p ∈ l, p.1 = k → p.2 = t) :
    lookupTgt l k = some t := by
  induction l with
  | nil => simp at hmem
  | cons q rest ih =>
    obtain ⟨qk, qt⟩ := q
    have htail : ∀ p ∈ rest, p.1 = k → p.2 = t :=
      fun p hp => hinv p (List.mem_cons_of_mem _ hp)
    by_cases hk : qk = k
    · have hqt : qt = t := hinv (qk, qt) (List.mem_cons_self _ _) hk
      simp [lookupTgt, hk, hqt]
    · simp only [List.map_cons, List.mem_cons] at hmem
      rcases hmem with h1 | h1
      · exact absurd h1.symm hk
      · simp [lookupTgt, hk, ih h1 htail]

theorem mem_of_lookupTgt (l : List (String × Target)) (k : String) (t : Target)
    (h : lookupTgt l k = some t) : k ∈ l.map Prod.fst := by
  induction l with
  | nil => simp [lookupTgt] at h
  | cons q rest ih =>
    obtain ⟨qk, qt⟩ := q
    by_cases hk : qk = k
    · simp [hk]
    · rw [lookupTgt, if_neg hk] at h
      simp [ih h]

theorem map_fst_applySubs (ds : List (String × UD)) :
    ∀ ts, ((applySubs ts ds).1).map Prod.fst = ts.map Prod.fst := by
  induction ds with
  | nil => intro ts; rfl
  | cons p rest ih =>
    intro ts
    obtain ⟨pk, pd⟩ := p
    cases hl : lookupTgt ts pk <;>
      simp [applySubs, hl, ih, map_fst_replaceTgt]

theorem lookupTgt_applySubs_notMem (ds : List (String × UD)) (k : String)
    (h : k ∉ ds.map Prod.fst) :
    ∀ ts, lookupTgt (applySubs ts ds).1 k = lookupTgt ts k := by
  induction ds with
  | nil => intro ts; rfl
  | cons p rest ih =>
    intro ts
    obtain ⟨pk, pd⟩ := p
    simp only [List.map_cons, List.mem_cons] at h
    push_neg at h
    cases hl : lookupTgt ts pk with
    | none => simp [applySubs, hl, ih h.2]
    | some t =>
      simp [applySubs, hl, ih h.2,
        lookupTgt_replaceTgt_other ts pk k _ h.1]

theorem applySubs_entry_invariant (ds : List (String × UD)) (k : String)
    (t : Target) (h : k ∉ ds.map Prod.fst) :
    ∀ ts, (∀ p ∈ ts, p.1 = k → p.2 = t) →
      ∀ p ∈ (applySubs ts ds).1, p.1 = k → p.2 = t := by
  induction ds with
  | nil => intro ts hinv; exact hinv
  | cons q rest ih =>
    intro ts hinv
    obtain ⟨qk, qd⟩ := q
    simp only [List.map_cons, List.mem_cons] at h
    push_neg at h
    cases hl : lookupTgt ts qk with
    | none =>
      have : (applySubs ts ((qk, qd) :: rest)).1 = (applySubs ts rest).1 := by
        simp [applySubs, hl]
      rw [this]
      exact ih h.2 ts hinv
    | some tq =>
      have : (applySubs ts ((qk, qd) :: rest)).1
          = (applySubs (replaceTgt ts qk (applyUD tq qd).1) rest).1 := by
        simp [applySubs, hl]
      rw [this]
      exact ih h.2 _
        (replaceTgt_preserves_invariant ts k qk t _ h.1 hinv)

theorem wfb_of_mem_wfbSubs (subs : List (String × UD))
    (h : UD.wfbSubs subs = true) : ∀ q ∈ subs, q.2.wfb = true := by
  induction subs with
  | nil => intro q hq; simp at hq
  | cons p rest ih =>
    obtain ⟨pk, pd⟩ := p
    rw [UD.wfbSubs, Bool.and_eq_true] at h
    intro q hq
    rcases List.mem_cons.mp hq with h1 | h1
    · rw [h1]
      exact h.1
    · exact ih h.2 q h1

theorem applySubs_idem (ds : List (String × UD))
    (hnd : (ds.map Prod.fst).Nodup)
    (hih : ∀ q ∈ ds, ∀ t : Target,
      applyUD (applyUD t q.2).1 q.2 = ((applyUD t q.2).1, 0)) :
    ∀ ts, applySubs (applySubs ts ds).1 ds = ((applySubs ts ds).1, 0) := by
  induction ds with
  | nil => intro ts; rfl
  | cons p rest ih =>
    intro ts
    obtain ⟨pk, pd⟩ := p
    simp only [List.map_cons, List.nodup_cons] at hnd
    have hihrest : ∀ q ∈ rest, ∀ t : Target,
        applyUD (applyUD t q.2).1 q.2 = ((applyUD t q.2).1, 0) :=
      fun q hq => hih q (List.mem_cons_of_mem _ hq)
    cases hl : lookupTgt ts pk with
    | none =>
      have hl2 : lookupTgt (applySubs ts rest).1 pk = none := by
        rw [lookupTgt_applySubs_notMem rest pk hnd.1 ts, hl]
      simp [applySubs, hl, hl2, ih hnd.2 hihrest ts]
    | some t =>
      have hr := hih (pk, pd) (List.mem_cons_self _ _) t
      have hinv1 : ∀ q ∈ replaceTgt ts pk (applyUD t pd).1, q.1 = pk →
          q.2 = (applyUD t pd).1 := replaceTgt_invariant ts pk _
      have hinvR : ∀ q ∈ (applySubs (replaceTgt ts pk (applyUD t pd).1) rest).1,
          q.1 = pk → q.2 = (applyUD t pd).1 :=
        applySubs_entry_invariant rest pk _ hnd.1 _ hinv1
      have hmem : pk ∈ ((applySubs (replaceTgt ts pk (applyUD t pd).1) rest).1).map Prod.fst := by
        rw [map_fst_applySubs rest, map_fst_replaceTgt]
        exact mem_of_lookupTgt ts pk t hl
      have hlook : lookupTgt (applySubs (replaceTgt ts pk (applyUD t pd).1) rest).1 pk
          = some (applyUD t pd).1 :=
        lookupTgt_of_invariant _ pk _ hmem hinvR
      have hrepl : replaceTgt (applySubs (replaceTgt ts pk (applyUD t pd).1) rest).1 pk
          (applyUD t pd).1 = (applySubs (replaceTgt ts pk (applyUD t pd).1) rest).1 :=
        replaceTgt_eq_self _ pk _ hinvR
      have hrest2 := ih hnd.2 hihrest (replaceTgt ts pk (applyUD t pd).1)
      simp [applySubs, hl, hlook, hr, hrepl, hrest2]

theorem applyUD_idem_aux : ∀ (n : Nat) (d : UD), sizeOf d ≤ n → d.wfb = true →
    ∀ t : Target, applyUD (applyUD t d).1 d = ((applyUD t d).1, 0) := by
  intro n
  induction n with
  | zero =>
    intro d hd
    obtain ⟨p, s, subs⟩ := d
    simp at hd
  | succ n ih =>
    intro d hd hwf t
    obtain ⟨p, s, subs⟩ := d
    rw [UD.wfb] at hwf
    simp only [Bool.and_eq_true, keyNodup_iff] at hwf
    obtain ⟨⟨⟨hnp, hns⟩, hnsub⟩, hwfs⟩ := hwf
    have hih : ∀ q ∈ subs, ∀ t' : Target,
        applyUD (applyUD t' q.2).1 q.2 = ((applyUD t' q.2).1, 0) := by
      intro q hq t'
      have h1 : sizeOf q < sizeOf subs := List.sizeOf_lt_of_mem hq
      have h2 : sizeOf q.2 < sizeOf q := by
        obtain ⟨qk, qd⟩ := q
        simp
      have h3 : sizeOf subs < sizeOf (UD.node p s subs) := by
        simp
      exact ih q.2 (by omega) (wfb_of_mem_wfbSubs subs hwfs q hq) t'
    obtain ⟨tp, tst, tsubs⟩ := t
    have h1 := applyLeaf_idem p hnp
    have h2 := applyLeaf_idem s hns
    have h3 := applySubs_idem subs hnsub hih
    simp [applyUD, h1, h2, h3]

/-- C2: applying an update descriptor twice in succession leaves the
target registry's observable state identical to the state after a
single application, and the second application performs zero writes to
any target (compare-before-write per leaf). -/
theorem apply_idempotent (t : Target) (d : UD) (h : d.wfb = true) :
    applyUD (applyUD t d).1 d = ((applyUD t d).1, 0) :=
  applyUD_idem_aux (sizeOf d) d le_rfl h t

/-- Witness for C2: idempotence at a concrete target and descriptor,
including a sub-target entry and an unresolvable sub-target name. -/
theorem apply_idempotent_witness :
    applyUD
      (applyUD (.node [("k", .num 0)] [] [("x", .node [] [] [])])
        (.node [("k", .num 1)] [("s", .str "v")]
          [("x", .node [("a", .num 2)] [] []), ("missing", .node [("b", .num 3)] [] [])])).1
      (.node [("k", .num 1)] [("s", .str "v")]
        [("x", .node [("a", .num 2)] [] []), ("missing", .node [("b", .num 3)] [] [])])
    = ((applyUD (.node [("k", .num 0)] [] [("x", .node [] [] [])])
        (.node [("k", .num 1)] [("s", .str "v")]
          [("x", .node [("a", .num 2)] [] []), ("missing", .node [("b", .num 3)] [] [])])).1, 0) :=
  apply_idempotent _ _ (by simp [UD.wfb, UD.wfbSubs, keyNodup])

/-- Modelled from the spec: the per-instance bookkeeping of the render
scheduler of `ReactiveMixin.js` (the mixin is not among the provided
sources; only its callers are).  It holds the committed snapshot, the
pending-change set (none since the last completed pass, or the merged
buffer of changes), whether a deferred render pass is scheduled, and
whether the instance has been unmounted. -/
structure Component where
  snapshot : Obj
  pending : Option Obj
  renderScheduled : Bool
  unmounted : Bool

/-- Modelled from the spec: the hook set the widget supplies to the
scheduler — the optional `shouldRender(next, previous)` predicate, and
the re-entrant `setState` partial (if any) that the widget's
`afterUpdate` hook performs during the k-th render pass. -/
structure Runtime where
  shouldRender : Obj → Obj → Bool
  afterUpdateSets : Nat → Option Obj

/-- Observable occurrences during render scheduling: the start of the
k-th render pass, an invocation of the update-derivation hook with the
committed snapshot, and an invocation of the after-update hook with the
previous snapshot. -/
inductive Event where
  | passRun : Nat → Event
  | updatesHook : Obj → Event
  | afterUpdateHook : Obj → Event
deriving DecidableEq, Repr

/-- Modelled from the spec: `setState(partial)` merges the partial
change into the pending-change set (last-writer-wins per key) and
requests a deferred render pass; after unmount it is a no-op. -/
def setState (c : Component) (changes : Obj) : Component :=
  if c.unmounted then c
  else { c with
    pending := some (objectAssign (c.pending.getD []) changes),
    renderScheduled := true }

/-- Modelled from the spec: one render pass of the scheduler (spec
section 4.2).  The pass snapshots and clears the pending-change set,
folds it over the previous snapshot, and consults `shouldRender`: when
false it still commits the next snapshot but fires no hooks; when true
it commits, fires the update-derivation hook, applies the descriptor,
then fires the after-update hook with the previous snapshot — and a
re-entrant `setState` made by that hook marks the instance dirty for
exactly one further pass rather than recursing. -/
def renderPass (rt : Runtime) (c : Component) (i : Nat) : Component × List Event :=
  let changes := c.pending.getD []
  let next := objectAssign c.snapshot changes
  let prev := c.snapshot
  if rt.shouldRender next prev then
    let base : Component :=
      { snapshot := next, pending := none, renderScheduled := false,
        unmounted := c.unmounted }
    let c' := match rt.afterUpdateSets i with
      | some p => setState base p
      | none => base
    (c', [.passRun i, .updatesHook next, .afterUpdateHook prev])
  else
    ({ snapshot := next, pending := none, renderScheduled := false,
       unmounted := c.unmounted },
      [.passRun i])

/-- Modelled from the spec: the deferred continuation that runs render
passes while a pass is scheduled (one trailing pass per burst of
re-entrant mutation).  The fuel bounds the number of passes examined;
every run in this development uses ample fuel. -/
def renderLoop (rt : Runtime) : Nat → Component → Nat → Component × List Event
  | 0, c, _ => (c, [])
  | fuel + 1, c, i =>
    if c.renderScheduled then
      let r := renderPass rt c i
      let r2 := renderLoop rt fuel r.1 (i + 1)
      (r2.1, r.2 ++ r2.2)
    else (c, [])

/-- Modelled from the spec: one synchronous execution turn — a burst of
`setState` calls — followed by the deferred render continuation. -/
def runTurn (rt : Runtime) (c : Component) (calls : List Obj) (fuel : Nat) :
    Component × List Event :=
  renderLoop rt fuel (calls.foldl setState c) 0

/-- Number of render passes recorded in an event trace. -/
def passCount (evs : List Event) : Nat :=
  (evs.filter (fun e => match e with
    | .passRun _ => true
    | _ => false)).length

theorem foldl_setState (calls : List Obj) :
    ∀ c : Component, c.unmounted = false →
      calls.foldl setState c =
        if calls.isEmpty then c else
          { snapshot := c.snapshot,
            pending := some (calls.foldl objectAssign (c.pending.getD [])),
            renderScheduled := true, unmounted := false } := by
  induction calls with
  | nil => intro c _; simp
  | cons q rest ih =>
    intro c hu
    have hstep : setState c q =
        { snapshot := c.snapshot,
          pending := some (objectAssign (c.pending.getD []) q),
          renderScheduled := true, unmounted := false } := by
      rw [setState, if_neg (by rw [hu]; exact Bool.false_ne_true)]
      obtain ⟨s, pnd, rs, un⟩ := c
      simp only at hu
      rw [hu]
    have := ih (setState c q) (by rw [hstep])
    rw [List.foldl_cons, this, hstep]
    cases rest with
    | nil => simp
    | cons r rs => simp

/-- C3: for a burst of `setState` calls made by a mounted, idle
component within one synchronous turn, no render happens during the
turn (the snapshot is unchanged until the deferred continuation runs),
the deferred continuation performs exactly one render pass, and the
snapshot that pass commits is the previous snapshot shallow-merged with
all of the turn's partial changes folded last-writer-wins per key. -/
theorem setState_batching (rt : Runtime) (c : Component) (calls : List Obj)
    (fuel : Nat)
    (hrt : ∀ i, rt.afterUpdateSets i = none)
    (hp : c.pending = none) (hs : c.renderScheduled = false)
    (hu : c.unmounted = false)
    (hne : calls ≠ []) (hfuel : 2 ≤ fuel) :
    (calls.foldl setState c).snapshot = c.snapshot
    ∧ passCount (runTurn rt c calls fuel).2 = 1
    ∧ (runTurn rt c calls fuel).1.snapshot
        = objectAssign c.snapshot (calls.foldl objectAssign []) := by
  have hfold := foldl_setState calls c hu
  rw [if_neg (by simpa using hne)] at hfold
  obtain ⟨f, rfl⟩ : ∃ f, fuel = f + 2 := ⟨fuel - 2, by omega⟩
  refine ⟨by rw [hfold], ?_, ?_⟩ <;>
  · rw [runTurn, hfold, hp]
    by_cases hsr : rt.shouldRender
        (objectAssign c.snapshot (calls.foldl objectAssign [])) c.snapshot = true
    · simp [renderLoop, renderPass, hsr, hrt, passCount]
    · rw [Bool.not_eq_true] at hsr
      simp [renderLoop, renderPass, hsr, hrt, passCount]

/-- Witness for C3: three `setState` calls with disjoint keys in one
turn yield one render pass whose committed snapshot holds all three
keys merged over the starting snapshot. -/
theorem setState_batching_witness :
    (([[("a", Value.num 1)], [("b", Value.num 2)], [("c", Value.num 3)]] :
        List Obj).foldl setState
      ⟨[("count", Value.num 0)], none, false, false⟩).snapshot
        = [("count", Value.num 0)]
    ∧ passCount (runTurn ⟨fun _ _ => true, fun _ => none⟩
        ⟨[("count", Value.num 0)], none, false, false⟩
        [[("a", Value.num 1)], [("b", Value.num 2)], [("c", Value.num 3)]] 2).2 = 1
    ∧ (runTurn ⟨fun _ _ => true, fun _ => none⟩
        ⟨[("count", Value.num 0)], none, false, false⟩
        [[("a", Value.num 1)], [("b", Value.num 2)], [("c", Value.num 3)]] 2).1.snapshot
        = objectAssign [("count", Value.num 0)]
            (([[("a", Value.num 1)], [("b", Value.num 2)], [("c", Value.num 3)]] :
              List Obj).foldl objectAssign []) :=
  setState_batching ⟨fun _ _ => true, fun _ => none⟩
    ⟨[("count", Value.num 0)], none, false, false⟩
    [[("a", Value.num 1)], [("b", Value.num 2)], [("c", Value.num 3)]] 2
    (fun _ => rfl) rfl rfl rfl (by simp) (by omega)

/-- C4: a `setState` made re-entrantly from the after-update hook of a
render pass does not start a recursive pass inside the current one:
the current pass completes, exactly one trailing pass follows, and the
trailing pass commits the re-entrant change merged over the
just-committed snapshot.  The event trace shows the trailing pass's
events strictly after the first pass's after-update hook. -/
theorem reentrant_setState_single_trailing_pass (rt : Runtime) (c : Component)
    (p q : Obj) (fuel : Nat)
    (hsr : ∀ a b, rt.shouldRender a b = true)
    (h0 : rt.afterUpdateSets 0 = some q) (h1 : rt.afterUpdateSets 1 = none)
    (hp : c.pending = some p) (hs : c.renderScheduled = true)
    (hu : c.unmounted = false) (hfuel : 3 ≤ fuel) :
    renderLoop rt fuel c 0
      = ({ snapshot := objectAssign (objectAssign c.snapshot p) (objectAssign [] q),
           pending := none, renderScheduled := false, unmounted := false },
         [.passRun 0, .updatesHook (objectAssign c.snapshot p),
          .afterUpdateHook c.snapshot,
          .passRun 1,
          .updatesHook (objectAssign (objectAssign c.snapshot p) (objectAssign [] q)),
          .afterUpdateHook (objectAssign c.snapshot p)])
    ∧ passCount (renderLoop rt fuel c 0).2 = 2 := by
  obtain ⟨f, rfl⟩ : ∃ f, fuel = f + 3 := ⟨fuel - 3, by omega⟩
  obtain ⟨s, pnd, rs, un⟩ := c
  simp only at hp hs hu
  subst hp
  subst hs
  subst hu
  constructor
  · simp [renderLoop, renderPass, setState, hsr, h0, h1]
  · simp [renderLoop, renderPass, setState, hsr, h0, h1, passCount]

/-- Witness for C4: a concrete component whose after-update hook
re-entrantly sets one key during the first pass. -/
theorem reentrant_setState_single_trailing_pass_witness :
    renderLoop
      ⟨fun _ _ => true, fun i => if i = 0 then some [("r", Value.num 9)] else none⟩
      3 ⟨[("count", Value.num 0)], some [("a", Value.num 1)], true, false⟩ 0
      = ({ snapshot := objectAssign
              (objectAssign [("count", Value.num 0)] [("a", Value.num 1)])
              (objectAssign [] [("r", Value.num 9)]),
           pending := none, renderScheduled := false, unmounted := false },
         [.passRun 0,
          .updatesHook (objectAssign [("count", Value.num 0)] [("a", Value.num 1)]),
          .afterUpdateHook [("count", Value.num 0)],
          .passRun 1,
          .updatesHook (objectAssign
            (objectAssign [("count", Value.num 0)] [("a", Value.num 1)])
            (objectAssign [] [("r", Value.num 9)])),
          .afterUpdateHook (objectAssign [("count", Value.num 0)] [("a", Value.num 1)])]) :=
  (reentrant_setState_single_trailing_pass
    ⟨fun _ _ => true, fun i => if i = 0 then some [("r", Value.num 9)] else none⟩
    ⟨[("count", Value.num 0)], some [("a", Value.num 1)], true, false⟩
    [("a", Value.num 1)] [("r", Value.num 9)] 3
    (fun _ _ => rfl) rfl rfl rfl rfl rfl (by omega)).1

/-- C5: when `shouldRender(next, previous)` returns false the render
pass still commits the next snapshot as current (the pending change is
not lost), and neither the update-derivation hook nor the after-update
hook fires during that pass. -/
theorem shouldRender_skip_commits (rt : Runtime) (c : Component) (i : Nat)
    (h : rt.shouldRender (objectAssign c.snapshot (c.pending.getD []))
        c.snapshot = false) :
    renderPass rt c i
      = ({ snapshot := objectAssign c.snapshot (c.pending.getD []),
           pending := none, renderScheduled := false, unmounted := c.unmounted },
         [.passRun i])
    ∧ (∀ o, Event.updatesHook o ∉ (renderPass rt c i).2)
    ∧ (∀ o, Event.afterUpdateHook o ∉ (renderPass rt c i).2) := by
  have hmain : renderPass rt c i
      = ({ snapshot := objectAssign c.snapshot (c.pending.getD []),
           pending := none, renderScheduled := false, unmounted := c.unmounted },
         [.passRun i]) := by
    rw [renderPass]
    simp [h]
  refine ⟨hmain, ?_, ?_⟩ <;>
  · intro o
    rw [hmain]
    simp

/-- Witness for C5: a component whose predicate always answers false
still commits the pending change into the snapshot. -/
theorem shouldRender_skip_commits_witness :
    renderPass ⟨fun _ _ => false, fun _ => none⟩
      ⟨[("count", Value.num 0)], some [("a", Value.num 1)], true, false⟩ 0
      = ({ snapshot := objectAssign [("count", Value.num 0)] [("a", Value.num 1)],
           pending := none, renderScheduled := false, unmounted := false },
         [.passRun 0]) :=
  (shouldRender_skip_commits ⟨fun _ _ => false, fun _ => none⟩
    ⟨[("count", Value.num 0)], some [("a", Value.num 1)], true, false⟩ 0 rfl).1

/-- State of a `WrappedStandardElement` as read by the methods embedded
below (`src/src/WrappedStandardElement.js`): the `innerAttributes` and
`innerProperties` maps, and every other state field gathered in
`rest`. -/
structure WSEState where
  innerAttributes : Obj
  innerProperties : Obj
  rest : Obj

/-- The comparison loops of `shouldComponentUpdate`
(`src/src/WrappedStandardElement.js` lines 350-361): scan the keys of
one next-state map for a value differing, by strict inequality, from
the current state's value under the same key. -/
def anyKeyDiffers : Obj → Obj → Bool
  | [], _ => false
  | (k, v) :: more, cur =>
    if v = getProp cur k then anyKeyDiffers more cur else true

/-- `shouldComponentUpdate(nextState)` of `WrappedStandardElement`
(`src/src/WrappedStandardElement.js` lines 344-364): trust the base
class's result when it is true; otherwise do a shallow comparison of
inner attributes and inner properties, returning false when nothing
changed. -/
def shouldComponentUpdate (base : Bool) (next cur : WSEState) : Bool :=
  if base then true
  else if anyKeyDiffers next.innerAttributes cur.innerAttributes then true
  else if anyKeyDiffers next.innerProperties cur.innerProperties then true
  else false

theorem anyKeyDiffers_iff (l cur : Obj) :
    anyKeyDiffers l cur = true ↔ ∃ p ∈ l, p.2 ≠ getProp cur p.1 := by
  induction l with
  | nil => simp [anyKeyDiffers]
  | cons p more ih =>
    obtain ⟨pk, pv⟩ := p
    by_cases h : pv = getProp cur pk
    · rw [anyKeyDiffers, if_pos h, ih]
      constructor
      · rintro ⟨q, hq, hqd⟩
        exact ⟨q, List.mem_cons_of_mem _ hq, hqd⟩
      · rintro ⟨q, hq, hqd⟩
        rcases List.mem_cons.mp hq with h1 | h1
        · rw [h1] at hqd
          exact absurd h hqd
        · exact ⟨q, h1, hqd⟩
    · rw [anyKeyDiffers, if_neg h]
      simp only [true_iff]
      exact ⟨(pk, pv), List.mem_cons_self _ _, h⟩

/-- C6: `WrappedStandardElement.shouldComponentUpdate` extends the
primary predicate with a structural comparison fallback: it answers
true whenever the base class's predicate does, and otherwise answers
true exactly when some key of the next state's inner attributes or
inner properties differs by strict inequality from the value under the
same key in the current state; with no differing key it answers false,
suppressing the render. -/
theorem shouldComponentUpdate_iff (base : Bool) (next cur : WSEState) :
    shouldComponentUpdate base next cur = true ↔
      base = true
      ∨ (∃ p ∈ next.innerAttributes, p.2 ≠ getProp cur.innerAttributes p.1)
      ∨ (∃ p ∈ next.innerProperties, p.2 ≠ getProp cur.innerProperties p.1) := by
  cases base with
  | true => simp [shouldComponentUpdate]
  | false =>
    rw [shouldComponentUpdate]
    by_cases h1 : anyKeyDiffers next.innerAttributes cur.innerAttributes
    · simp [h1, (anyKeyDiffers_iff _ _).mp h1]
    · by_cases h2 : anyKeyDiffers next.innerProperties cur.innerProperties
      · simp [h1, h2, (anyKeyDiffers_iff _ _).mp h2]
      · rw [Bool.not_eq_true] at h1 h2
        rw [h1, h2]
        constructor
        · intro hff
          simp at hff
        · rintro (hb | hx | hx)
          · exact absurd hb Bool.false_ne_true
          · rw [← anyKeyDiffers_iff, h1] at hx
            exact absurd hx Bool.false_ne_true
          · rw [← anyKeyDiffers_iff, h2] at hx
            exact absurd hx Bool.false_ne_true

/-- `setInnerProperty(name, value)` of `WrappedStandardElement`
(`src/src/WrappedStandardElement.js` lines 324-342): compare against
the value already in state to avoid infinite loops, and only when the
value differs build a copy of `innerProperties` with the one name
updated and hand it to `setState`.  The Bool records whether `setState`
was called (a render requested). -/
def setInnerProperty (st : WSEState) (name : String) (v : Value) :
    WSEState × Bool :=
  let current := getProp st.innerProperties name
  if current = v then (st, false)
  else
    ({ st with innerProperties :=
        objectAssign (objectAssign [] st.innerProperties) [(name, v)] }, true)

theorem lookupVal_copy (o : Obj) (k : String)
    (h : (o.map Prod.fst).Nodup) :
    lookupVal (objectAssign [] o) k = lookupVal o k := by
  rw [lookupVal_objectAssign, lookupLast_eq_lookupVal o k h]
  cases lookupVal o k <;> rfl

/-- C9: `setInnerProperty(n, v)` leaves the component's state entirely
unchanged and schedules no render when the current
`state.innerProperties[n]` strictly equals `v`; otherwise it requests a
state where `innerProperties` is replaced by a copy mapping `n` to `v`
while every other key of `innerProperties`, and every state field other
than `innerProperties`, is unchanged. -/
theorem setInnerProperty_frame (st : WSEState) (name : String) (v : Value)
    (hnd : (st.innerProperties.map Prod.fst).Nodup) :
    (getProp st.innerProperties name = v →
      setInnerProperty st name v = (st, false))
    ∧ (getProp st.innerProperties name ≠ v →
      (setInnerProperty st name v).2 = true
      ∧ (setInnerProperty st name v).1.innerAttributes = st.innerAttributes
      ∧ (setInnerProperty st name v).1.rest = st.rest
      ∧ getProp (setInnerProperty st name v).1.innerProperties name = v
      ∧ ∀ k, k ≠ name →
          lookupVal (setInnerProperty st name v).1.innerProperties k
            = lookupVal st.innerProperties k) := by
  constructor
  · intro he
    rw [setInnerProperty]
    simp [he]
  · intro hne
    have hbr : setInnerProperty st name v
        = ({ st with innerProperties :=
            objectAssign (objectAssign [] st.innerProperties) [(name, v)] },
           true) := by
      rw [setInnerProperty]
      simp [hne]
    refine ⟨by rw [hbr], by rw [hbr], by rw [hbr], ?_, ?_⟩
    · rw [hbr]
      simp only [getProp]
      rw [lookupVal_objectAssign]
      simp [lookupLast]
    · intro k hk
      rw [hbr]
      simp only
      rw [lookupVal_objectAssign]
      have : lookupLast [(name, v)] k = none := by
        simp [lookupLast, Ne.symm hk]
      rw [this, lookupVal_copy st.innerProperties k hnd]

/-- Witness for C9: both branches at concrete states — an equal write
is swallowed whole, a differing write updates exactly the one key. -/
theorem setInnerProperty_frame_witness :
    setInnerProperty ⟨[], [("x", Value.num 1), ("y", Value.num 5)], []⟩ "x"
        (Value.num 1)
      = (⟨[], [("x", Value.num 1), ("y", Value.num 5)], []⟩, false)
    ∧ (setInnerProperty ⟨[], [("x", Value.num 1), ("y", Value.num 5)], []⟩ "x"
        (Value.num 2)).2 = true
    ∧ getProp (setInnerProperty ⟨[], [("x", Value.num 1), ("y", Value.num 5)], []⟩
        "x" (Value.num 2)).1.innerProperties "x" = Value.num 2
    ∧ lookupVal (setInnerProperty ⟨[], [("x", Value.num 1), ("y", Value.num 5)], []⟩
        "x" (Value.num 2)).1.innerProperties "y" = some (Value.num 5) := by
  refine ⟨?_, ?_, ?_, ?_⟩
  · exact (setInnerProperty_frame _ "x" (Value.num 1) (by decide)).1 (by decide)
  · exact ((setInnerProperty_frame _ "x" (Value.num 2) (by decide)).2 (by decide)).1
  · exact ((setInnerProperty_frame _ "x" (Value.num 2) (by decide)).2
      (by decide)).2.2.2.1
  · rw [((setInnerProperty_frame
      (⟨[], [("x", Value.num 1), ("y", Value.num 5)], []⟩ : WSEState) "x"
      (Value.num 2) (by decide)).2 (by decide)).2.2.2.2 "y" (by decide)]
    rfl

/-- `getInnerProperty(name)` of `WrappedStandardElement`
(`src/src/WrappedStandardElement.js` lines 301-321): read the value
recorded in state and, via JavaScript truthiness, fall back to
`this.shadowRoot && this.inner[name]` when the recorded value is
falsy. -/
def getInnerProperty (st : WSEState) (shadowRoot : Value) (inner : Obj)
    (name : String) : Value :=
  jsOr (getProp st.innerProperties name)
    (jsAnd shadowRoot (getProp inner name))

/-- C10: `getInnerProperty(n)` returns the value stored in
`state.innerProperties[n]` only when that value is truthy; whenever the
stored value is falsy (including an explicitly recorded `false`, `0` or
empty string) it reads `shadowRoot && inner[n]` instead, so the falsy
recorded value is never what is reported from state — in particular
with a rendered shadow root the inner element's property value is
returned. -/
theorem getInnerProperty_falsy_fallback (st : WSEState) (shadowRoot : Value)
    (inner : Obj) (name : String) :
    (Value.truthy (getProp st.innerProperties name) = true →
      getInnerProperty st shadowRoot inner name = getProp st.innerProperties name)
    ∧ (Value.truthy (getProp st.innerProperties name) = false →
      getInnerProperty st shadowRoot inner name
        = jsAnd shadowRoot (getProp inner name))
    ∧ (Value.truthy (getProp st.innerProperties name) = false →
      Value.truthy shadowRoot = true →
      getInnerProperty st shadowRoot inner name = getProp inner name) := by
  refine ⟨?_, ?_, ?_⟩
  · intro h
    rw [getInnerProperty, jsOr, if_pos h]
  · intro h
    rw [getInnerProperty, jsOr, if_neg (by rw [h]; exact Bool.false_ne_true)]
  · intro h hs
    rw [getInnerProperty, jsOr, if_neg (by rw [h]; exact Bool.false_ne_true),
      jsAnd, if_pos hs]

/-- Witness for C10: a recorded `false` under a rendered shadow root is
not reported; the inner element's value is read instead. -/
theorem getInnerProperty_falsy_fallback_witness :
    getInnerProperty ⟨[], [("checked", Value.bool false)], []⟩ (Value.obj 1)
      [("checked", Value.bool true)] "checked" = Value.bool true :=
  (getInnerProperty_falsy_fallback ⟨[], [("checked", Value.bool false)], []⟩
    (Value.obj 1) [("checked", Value.bool true)] "checked").2.2 rfl rfl

/-- The `defaultState` contributions of a composition chain as every
class in the sources implements them (`Toast.defaultState` in
`src/unnamed/part_000` lines 60-65, `ArrowDirection.defaultState` in
`src/src/ArrowDirectionMixin.js` lines 35-39, `Drawer.defaultState`,
`WrappedStandardElement.defaultState`): each layer merges its own keys
over the snapshot produced by the layer beneath it via `Object.assign`.
Layers are listed innermost (deepest base class) first, so later
entries are the later-composed, more-derived layers. -/
def chainDefaultState (layers : List Obj) : Obj :=
  layers.foldl objectAssign []

/-- The value a composition chain contributes for a key, read by the
spec's rule: the last-composed (outermost) layer contributing the key
wins. -/
def chainLookup : List Obj → String → Option Value
  | [], _ => none
  | l :: rest, k =>
    match chainLookup rest k with
    | some v => some v
    | none => lookupLast l k

theorem lookupVal_foldl_objectAssign (layers : List Obj) (k : String) :
    ∀ acc, lookupVal (layers.foldl objectAssign acc) k
      = match chainLookup layers k with
        | some v => some v
        | none => lookupVal acc k := by
  induction layers with
  | nil => intro acc; rfl
  | cons l rest ih =>
    intro acc
    rw [List.foldl_cons, ih]
    rcases hrest : chainLookup rest k with _ | w
    · rw [lookupVal_objectAssign]
      cases hl : lookupLast l k <;> simp [chainLookup, hrest, hl]
    · simp [chainLookup, hrest]

theorem chainLookup_eq_none_iff (layers : List Obj) (k : String) :
    chainLookup layers k = none ↔ ∀ l ∈ layers, lookupLast l k = none := by
  induction layers with
  | nil => simp [chainLookup]
  | cons l rest ih =>
    constructor
    · intro h
      rw [chainLookup] at h
      cases hrest : chainLookup rest k with
      | some v =>
        rw [hrest] at h
        exact absurd h (by simp)
      | none =>
        rw [hrest] at h
        intro l' hl'
        rcases List.mem_cons.mp hl' with h1 | h1
        · rw [h1]
          exact h
        · exact (ih.mp hrest) l' h1
    · intro h
      rw [chainLookup,
        ih.mpr (fun l' hl' => h l' (List.mem_cons_of_mem _ hl'))]
      exact h l (List.mem_cons_self _ _)

theorem chainLookup_last_wins (l1 l2 : List Obj) (lj : Obj) (k : String)
    (v : Value) (hj : lookupLast lj k = some v)
    (h2 : ∀ l ∈ l2, lookupLast l k = none) :
    chainLookup (l1 ++ lj :: l2) k = some v := by
  induction l1 with
  | nil =>
    simp [chainLookup, (chainLookup_eq_none_iff l2 k).mpr h2, hj]
  | cons l l1' ih =>
    simp [chainLookup, ih]

/-- C7: the default state of a composition chain holds the union of the
default-state keys contributed by every layer, and when two layers
contribute the same key, the later-composed (outer) layer's value is
the one present in the resulting snapshot. -/
theorem defaultState_union_last_composed_wins (layers : List Obj) (k : String) :
    lookupVal (chainDefaultState layers) k = chainLookup layers k
    ∧ (lookupVal (chainDefaultState layers) k = none ↔
        ∀ l ∈ layers, lookupLast l k = none)
    ∧ (∀ (l1 l2 : List Obj) (lj : Obj) (v : Value),
        layers = l1 ++ lj :: l2 → lookupLast lj k = some v →
        (∀ l ∈ l2, lookupLast l k = none) →
        lookupVal (chainDefaultState layers) k = some v) := by
  have hmain : lookupVal (chainDefaultState layers) k = chainLookup layers k := by
    rw [chainDefaultState, lookupVal_foldl_objectAssign]
    cases chainLookup layers k <;> rfl
  refine ⟨hmain, ?_, ?_⟩
  · rw [hmain]
    exact chainLookup_eq_none_iff layers k
  · intro l1 l2 lj v hl hj h2
    rw [hmain, hl]
    exact chainLookup_last_wins l1 l2 lj k v hj h2

/-- Witness for C7: a two-layer chain in which the outer layer
overrides one key of the inner layer and adds one of its own, mirroring
`Toast.defaultState` over its base chain. -/
theorem defaultState_union_last_composed_wins_witness :
    lookupVal (chainDefaultState
      [[("orientation", Value.str "horizontal")],
       [("orientation", Value.str "vertical"), ("fromEdge", Value.str "bottom")]])
      "orientation" = some (Value.str "vertical") :=
  (defaultState_union_last_composed_wins
      [[("orientation", Value.str "horizontal")],
       [("orientation", Value.str "vertical"), ("fromEdge", Value.str "bottom")]]
      "orientation").2.2
    [[("orientation", Value.str "horizontal")]] []
    [("orientation", Value.str "vertical"), ("fromEdge", Value.str "bottom")]
    (Value.str "vertical") rfl rfl (fun l hl => absurd hl (List.not_mem_nil l))

/-- The `componentDidMount` interception pattern of the sources
(`SelectionInView.componentDidMount`, `src/src/SelectionInViewMixin.js`
lines 23-27; `Toast.componentDidMount`, `src/unnamed/part_000` lines
50-53; also `Drawer`, `ArrowDirection` and `WrappedStandardElement`):
each layer first invokes the next (inner) layer's hook when present,
then runs its own added behavior.  The chain lists layers outermost
(most derived) first; the result is the order in which the layers' own
behaviors run. -/
def componentDidMountTrace : List String → List String
  | [] => []
  | name :: inner => componentDidMountTrace inner ++ [name]

/-- The `componentDidUpdate` interception pattern of the sources
(`SelectionInView.componentDidUpdate`, `src/src/SelectionInViewMixin.js`
lines 28-31; `Toast.componentDidUpdate`, `src/unnamed/part_000` lines
55-58; `WrappedStandardElement.componentDidUpdate`), identical in shape
to the after-mount hook: inner layer's hook first, own behavior
after. -/
def componentDidUpdateTrace : List String → List String
  | [] => []
  | name :: inner => componentDidUpdateTrace inner ++ [name]

/-- C8: for the after-mount and after-update lifecycle hooks, every
trait invokes the next (inner) layer's hook before running its own
added behavior, so within one hook invocation the innermost layer's
behavior runs first and the outermost layer's behavior runs last. -/
theorem lifecycle_hooks_inner_first (chain : List String) :
    componentDidMountTrace chain = chain.reverse
    ∧ componentDidUpdateTrace chain = chain.reverse
    ∧ (componentDidMountTrace chain).head? = chain.getLast?
    ∧ (componentDidUpdateTrace chain).getLast? = chain.head? := by
  have hm : componentDidMountTrace chain = chain.reverse := by
    induction chain with
    | nil => rfl
    | cons n inner ih =>
      rw [componentDidMountTrace, ih, List.reverse_cons]
  have hu : componentDidUpdateTrace chain = chain.reverse := by
    clear hm
    induction chain with
    | nil => rfl
    | cons n inner ih =>
      rw [componentDidUpdateTrace, ih, List.reverse_cons]
  refine ⟨hm, hu, ?_, ?_⟩
  · rw [hm, List.head?_reverse]
  · rw [hu, List.getLast?_reverse]

end Elix
